import Mathlib

/-!
Verification of the echo-synthesis routine
`pycbc/waveform/echoeswaveformPComega_pycbc.py` (`truncfunc` and `add_echoes`).

Modelling conventions of the shallow embedding:
* numpy float arrays are `List ℚ`; IEEE float arithmetic is idealised as exact
  rational arithmetic.
* `np.tanh` is an external transcendental function; it enters as an
  uninterpreted parameter `tanh : ℚ → ℚ`.
* `2π * utils.frequency_from_polarizations(hp.trim_zeros(), hc.trim_zeros())`
  is library code outside this file's source; its result (one angular-frequency
  sample per trimmed input sample) enters the embedding as the parameter
  `omegaRaw`.
* an uncaught Python exception (IndexError, ZeroDivisionError, numpy
  ValueError) is `Option.none`.
* `np.argmax(np.absolute(hp + 1j*hc))` compares complex magnitudes; since
  `Real.sqrt` is monotone on squares, the argmax is computed on the squared
  modulus `hp[i]*hp[i] + hc[i]*hc[i]`, and the magnitude theorems are stated
  with `Real.sqrt`.
* the two input time series are consumed through their sample data, sample
  spacing `delta_t` and start time `epoch`; the caller contract (§6 of the
  design) requires the two polarizations to have equal length and spacing.
-/

namespace Echoes

/-- Python `round` (round half to even) as an integer, as in `int(round(x))`. -/
def pyRound (q : ℚ) : ℤ :=
  let f := ⌊q⌋
  let r := q - f
  if r < 1/2 then f
  else if 1/2 < r then f + 1
  else if f % 2 = 0 then f else f + 1

/-- `truncfunc(t, t0, t_merger, omega_of_t)` from the source:
`theta = 0.5 * (1 + np.tanh(0.5 * omega_of_t * (t - t_merger - t0)))`. -/
def truncfunc (tanh : ℚ → ℚ) (t t0 t_merger omega_of_t : ℚ) : ℚ :=
  1/2 * (1 + tanh (1/2 * omega_of_t * (t - t_merger - t0)))

/-- `hp.sample_times[i] = epoch + i * delta_t`. -/
def sampleTime (epoch delta_t : ℚ) (i : ℕ) : ℚ := epoch + i * delta_t

/-- Elementwise squared modulus of `template = hp + 1j*hc`. -/
def magSq (hp hc : List ℚ) : List ℚ := List.zipWith (fun a b => a * a + b * b) hp hc

/-- `np.argmax`: index of the first occurrence of the maximum (0 on empty
input); ties are broken towards the lowest index because the head only wins
when it is at least as large as the best of the tail. -/
def argmaxFirst : List ℚ → ℕ
  | [] => 0
  | [_] => 0
  | a :: b :: t =>
    let r := argmaxFirst (b :: t)
    if (b :: t).getD r 0 ≤ a then 0 else r + 1

/-- The index `np.argmax(np.absolute(hp + 1j*hc))` used for the merger time. -/
def mergerIdx (hp hc : List ℚ) : ℕ := argmaxFirst (magSq hp hc)

/-- `t_merger = sampletimesarray[np.argmax(np.absolute(template))]`. -/
def tMerger (hp hc : List ℚ) (epoch delta_t : ℚ) : ℚ :=
  sampleTime epoch delta_t (mergerIdx hp hc)

/-- The leading zero-run scan `while hp[i] == 0: i += 1`, as a bounded search:
`some k` when `k` is the first index holding a nonzero sample; `none` when the
list is all zeros, in which case the Python loop walks one step past the end
and the read `hp[len(hp)]` raises IndexError. -/
def findFirstNonzero : List ℚ → Option ℕ
  | [] => none
  | a :: t => if a = 0 then (findFirstNonzero t).map (· + 1) else some 0

/-- pycbc `Array.resize(n)`: keep the first `n` samples, zero-pad at the end. -/
def resizeTo (n : ℕ) (l : List ℚ) : List ℚ :=
  l.take n ++ List.replicate (n - l.length) 0

/-- Guard of the zero-padding correction branch:
`if hp[0] == 0 and hc[0] == 0`. -/
def correctionActive (hp hc : List ℚ) : Bool :=
  decide (hp.headI = 0) && decide (hc.headI = 0)

/-- Lines 68–88 of the source: the zero-padding correction applied to the raw
angular-frequency estimate `omegaRaw`, followed by `omega.resize(len(template))`.
Returns the full-length omega array together with the warning flag (whether
"Polarisations have unequal number of leading zeroes." was printed).

In the correction branch the code builds `omega_temp = np.zeros(len(template))`,
assigns `omega_temp[:k] = omega[k]` for `k = max(first_zero_index_hp,
first_zero_index_hc)` and then rebinds `omega = omega_temp`, so the final
resize is the identity there (the array already has full length, and the
numpy slice `[:k]` clamps at the array length); in the skip branch the resize
truncates or zero-pads `omegaRaw` to the original sample count.
`none` models a Python exception: an all-zero channel (the scan runs out of
bounds) or `omega[k]` with `k` past the end of the raw estimate. -/
def omegaCorrect (hp hc omegaRaw : List ℚ) : Option (List ℚ × Bool) :=
  let n := hp.length
  if correctionActive hp hc then
    match findFirstNonzero hp, findFirstNonzero hc with
    | some khp, some khc =>
      match omegaRaw.get? (max khp khc) with
      | some v =>
        let k := min (max khp khc) n
        some (List.replicate k v ++ List.replicate (n - k) 0, decide (khp ≠ khc))
      | none => none
    | _, _ => none
  else
    some (resizeTo n omegaRaw, false)

/-- `tapercoeff = truncfunc(sampletimesarray.numpy(), t0trunc, t_merger, omega)`,
elementwise over the `n` sample times. -/
def taperCoeff (tanh : ℚ → ℚ) (epoch delta_t t0trunc t_merger : ℚ)
    (omega : List ℚ) (n : ℕ) : List ℚ :=
  (List.range n).map fun i =>
    truncfunc tanh (sampleTime epoch delta_t i) t0trunc t_merger (omega.getD i 0)

/-- `buf[a : a + len(x)] += x` with Python/numpy slice semantics: a negative
bound wraps once past the end, then both bounds clamp to `[0, len(buf)]`; the
addition succeeds exactly when the selected slice has the length of `x`
(otherwise numpy raises a broadcasting ValueError, modelled as `none`; the
scalar-broadcast special case of a length-1 `x` against a slice of a different
length never arises in `add_echoes`, whose added arrays always span a full
seed-length slice). -/
def sliceAdd (buf x : List ℚ) (a : ℤ) : Option (List ℚ) :=
  let n : ℤ := buf.length
  let s : ℤ := if a < 0 then max (a + n) 0 else min a n
  let b : ℤ := a + x.length
  let e : ℤ := if b < 0 then max (b + n) 0 else min b n
  if e - s = x.length then
    some ((List.range buf.length).map fun (i : ℕ) =>
      if s ≤ (i : ℤ) ∧ (i : ℤ) < e then buf.getD i 0 + x.getD (((i : ℤ) - s).toNat) 0
      else buf.getD i 0)
  else none

/-- Echo sample offset `int(round((t_echo + del_t_echo * j) / timestep))`
(for `j = 0` this is the source's `t_echo_steps`). -/
def echoOffset (t_echo del_t_echo ts : ℚ) (j : ℕ) : ℤ :=
  pyRound ((t_echo + del_t_echo * j) / ts)

/-- The echo loop `for j in range(1, int(n_echoes))`: for each `j` in `js`,
accumulate the seed scaled by `amplitude * gamma**j * (-1.0)**(j+1)` into the
buffer at the slice starting at `echoOffset`; `none` models a numpy exception
in one of the slice assignments. -/
def applyEchoes (seed : List ℚ) (amplitude gamma t_echo del_t_echo ts : ℚ) :
    List ℕ → List ℚ → Option (List ℚ)
  | [], buf => some buf
  | j :: js, buf =>
    (sliceAdd buf
        (seed.map fun x => x * amplitude * gamma ^ j * (-1 : ℚ) ^ (j + 1))
        (echoOffset t_echo del_t_echo ts j)).bind
      (applyEchoes seed amplitude gamma t_echo del_t_echo ts js)

/-- `add_echoes(hp, hc, t0trunc, t_echo, del_t_echo, n_echoes, amplitude,
gamma, timestep=None)`: returns the pair of output sample arrays (the returned
TimeSeries wrappers, which carry `delta_t = timestep` and the input's first
sample time as epoch, are dropped, keeping the sample data); `none` models an
uncaught Python exception (ZeroDivisionError when the resolved timestep is
zero, ValueError from `np.zeros` of a negative size or from a mismatched slice
assignment, IndexError from the zero-run scan). -/
def addEchoes (hp hc : List ℚ) (epoch delta_t : ℚ) (tanh : ℚ → ℚ)
    (omegaRaw : List ℚ) (t0trunc t_echo del_t_echo : ℚ) (n_echoes : ℤ)
    (amplitude gamma : ℚ) (timestep : Option ℚ) : Option (List ℚ × List ℚ) :=
  let ts := timestep.getD delta_t
  let t_merger := tMerger hp hc epoch delta_t
  (omegaCorrect hp hc omegaRaw).bind fun ow =>
    let n := hp.length
    let tc := taperCoeff tanh epoch delta_t t0trunc t_merger ow.1 n
    let hpT := List.zipWith (· * ·) hp tc
    let hcT := List.zipWith (· * ·) hc tc
    if ts = 0 then none
    else
      let m : ℤ := ⌈(t_echo + (n_echoes : ℚ) * del_t_echo) / ts⌉
      if (hp.length : ℤ) + m < 0 ∨ (hc.length : ℤ) + m < 0 then none
      else
        let hparray := List.replicate ((hp.length : ℤ) + m).toNat (0 : ℚ)
        let hcarray := List.replicate ((hc.length : ℤ) + m).toNat (0 : ℚ)
        (sliceAdd hparray (hpT.map fun x => x * amplitude * (-1))
            (pyRound (t_echo / ts))).bind fun hp1 =>
        (sliceAdd hcarray (hcT.map fun x => x * amplitude * (-1))
            (pyRound (t_echo / ts))).bind fun hc1 =>
        (applyEchoes hpT amplitude gamma t_echo del_t_echo ts
            (List.range' 1 (n_echoes - 1).toNat) hp1).bind fun hpF =>
        (applyEchoes hcT amplitude gamma t_echo del_t_echo ts
            (List.range' 1 (n_echoes - 1).toNat) hc1).bind fun hcF =>
        some (hpF, hcF)

/-- The contribution of echo `j` to output index `i`: the seed sample
`i - offset_j` scaled by `amplitude * gamma^j * (-1)^(j+1)` when `i` lies in
that echo's slice, and `0` otherwise. -/
def echoContrib (seed : List ℚ) (amplitude gamma t_echo del_t_echo ts : ℚ)
    (j i : ℕ) : ℚ :=
  let o := echoOffset t_echo del_t_echo ts j
  if o ≤ (i : ℤ) ∧ (i : ℤ) < o + seed.length then
    seed.getD (((i : ℤ) - o).toNat) 0 * amplitude * gamma ^ j * (-1 : ℚ) ^ (j + 1)
  else 0

lemma floor_le_pyRound (q : ℚ) : ⌊q⌋ ≤ pyRound q := by
  simp only [pyRound]
  split_ifs <;> omega

lemma pyRound_le_ceil (q : ℚ) : pyRound q ≤ ⌈q⌉ := by
  have h1 : ⌊q⌋ ≤ ⌈q⌉ := Int.floor_le_ceil q
  have h2 : (1 : ℚ)/2 ≤ q - ⌊q⌋ → ⌊q⌋ + 1 ≤ ⌈q⌉ := by
    intro h
    have hq : (⌊q⌋ : ℚ) < q := by linarith
    have hc : q ≤ (⌈q⌉ : ℚ) := Int.le_ceil q
    have : (⌊q⌋ : ℚ) < (⌈q⌉ : ℚ) := lt_of_lt_of_le hq hc
    have : ⌊q⌋ < ⌈q⌉ := by exact_mod_cast this
    omega
  simp only [pyRound]
  split_ifs with hA hB hC
  · exact h1
  · exact h2 (le_of_lt hB)
  · exact h1
  · exact h2 (by linarith)

lemma pyRound_nonneg (q : ℚ) (h : 0 ≤ q) : 0 ≤ pyRound q :=
  le_trans (Int.floor_nonneg.mpr h) (floor_le_pyRound q)

lemma echoOffset_nonneg (t_echo del_t_echo ts : ℚ) (j : ℕ)
    (hts : 0 < ts) (ht : 0 ≤ t_echo) (hd : 0 ≤ del_t_echo) :
    0 ≤ echoOffset t_echo del_t_echo ts j := by
  apply pyRound_nonneg
  apply div_nonneg _ (le_of_lt hts)
  have : (0 : ℚ) ≤ del_t_echo * j := mul_nonneg hd (by positivity)
  linarith

lemma echoOffset_le_ceil (t_echo del_t_echo ts : ℚ) (n_echoes : ℤ) (j : ℕ)
    (hts : 0 < ts) (hd : 0 ≤ del_t_echo) (hj : (j : ℤ) < n_echoes) :
    echoOffset t_echo del_t_echo ts j ≤ ⌈(t_echo + (n_echoes : ℚ) * del_t_echo) / ts⌉ := by
  refine le_trans (pyRound_le_ceil _) (Int.ceil_le_ceil ?_)
  have hjn : (j : ℚ) ≤ (n_echoes : ℚ) := by exact_mod_cast hj.le
  have h1 : t_echo + del_t_echo * (j : ℚ) ≤ t_echo + (n_echoes : ℚ) * del_t_echo := by nlinarith
  exact (div_le_div_iff_of_pos_right hts).mpr h1

/-- The scan characterisation: `findFirstNonzero l = some k` exactly when `k`
is in bounds, holds a nonzero sample, and everything before it is zero. -/
lemma findFirstNonzero_some_iff (l : List ℚ) (k : ℕ) :
    findFirstNonzero l = some k ↔
      k < l.length ∧ l.getD k 0 ≠ 0 ∧ ∀ j < k, l.getD j 0 = 0 := by
  induction l generalizing k with
  | nil => simp [findFirstNonzero]
  | cons a t ih =>
    by_cases h : a = 0
    · cases k with
      | zero => simp [findFirstNonzero, h]
      | succ k =>
        simp only [findFirstNonzero, if_pos h, Option.map_eq_some', List.length_cons,
          List.getD_cons_succ, Nat.add_lt_add_iff_right]
        constructor
        · rintro ⟨k', hk', hkk⟩
          have hk'' : k' = k := by omega
          subst hk''
          obtain ⟨h1, h2, h3⟩ := (ih k').mp hk'
          refine ⟨by omega, h2, ?_⟩
          intro j hj
          cases j with
          | zero => simpa using h
          | succ j' => simpa using h3 j' (by omega)
        · rintro ⟨h1, h2, h3⟩
          refine ⟨k, (ih k).mpr ⟨by omega, h2, ?_⟩, rfl⟩
          intro j hj
          have := h3 (j + 1) (by omega)
          simpa using this
    · cases k with
      | zero => simp [findFirstNonzero, h]
      | succ k =>
        simp only [findFirstNonzero, if_neg h]
        constructor
        · intro hk; exact absurd hk (by simp)
        · rintro ⟨h1, h2, h3⟩
          have := h3 0 (by omega)
          simp at this
          exact absurd this h

/-- `findFirstNonzero l = none` exactly on an all-zero list: the Python walk
has no in-bounds stopping index there. -/
lemma findFirstNonzero_none_iff (l : List ℚ) :
    findFirstNonzero l = none ↔ ∀ a ∈ l, a = 0 := by
  induction l with
  | nil => simp [findFirstNonzero]
  | cons a t ih =>
    by_cases h : a = 0
    · simp [findFirstNonzero, h, Option.map_eq_none', ih]
    · simp [findFirstNonzero, h]

/-- `argmaxFirst` returns an in-bounds index of the maximum, and every earlier
index holds a strictly smaller value (first-occurrence tie-break). -/
lemma argmaxFirst_spec (l : List ℚ) (hl : l ≠ []) :
    argmaxFirst l < l.length ∧
      (∀ j < l.length, l.getD j 0 ≤ l.getD (argmaxFirst l) 0) ∧
      (∀ j < argmaxFirst l, l.getD j 0 < l.getD (argmaxFirst l) 0) := by
  induction l with
  | nil => exact absurd rfl hl
  | cons a t ih =>
    cases t with
    | nil =>
      refine ⟨by simp [argmaxFirst], ?_, ?_⟩
      · intro j hj
        have : j = 0 := by simpa using Nat.lt_one_iff.mp (by simpa using hj)
        subst this
        simp [argmaxFirst]
      · intro j hj
        simp [argmaxFirst] at hj
    | cons b t' =>
      obtain ⟨ih1, ih2, ih3⟩ := ih (by simp)
      by_cases hle : (b :: t').getD (argmaxFirst (b :: t')) 0 ≤ a
      · have hval : argmaxFirst (a :: b :: t') = 0 := by
          simp only [argmaxFirst]
          rw [if_pos hle]
        rw [hval]
        refine ⟨by simp, ?_, ?_⟩
        · intro j hj
          cases j with
          | zero => simp
          | succ j' =>
            simp only [List.getD_cons_succ, List.getD_cons_zero]
            exact le_trans (ih2 j' (by simpa using hj)) hle
        · intro j hj
          omega
      · have hval : argmaxFirst (a :: b :: t') = argmaxFirst (b :: t') + 1 := by
          simp only [argmaxFirst]
          rw [if_neg hle]
        push_neg at hle
        rw [hval]
        refine ⟨by simpa using ih1, ?_, ?_⟩
        · intro j hj
          cases j with
          | zero =>
            simp only [List.getD_cons_zero, List.getD_cons_succ]
            exact le_of_lt hle
          | succ j' =>
            simp only [List.getD_cons_succ]
            exact ih2 j' (by simpa using hj)
        · intro j hj
          cases j with
          | zero => simpa using hle
          | succ j' =>
            simp only [List.getD_cons_succ]
            exact ih3 j' (by omega)

lemma sliceAdd_length (buf x : List ℚ) (a : ℤ) (out : List ℚ)
    (h : sliceAdd buf x a = some out) : out.length = buf.length := by
  simp only [sliceAdd] at h
  split_ifs at h <;> (injection h with h; subst h; simp)

/-- When the slice lies inside the buffer, `sliceAdd` succeeds and returns the
elementwise accumulation. -/
lemma sliceAdd_eq (buf x : List ℚ) (a : ℤ) (ha : 0 ≤ a)
    (hfit : a + (x.length : ℤ) ≤ buf.length) :
    sliceAdd buf x a = some ((List.range buf.length).map fun (i : ℕ) =>
      if a ≤ (i : ℤ) ∧ (i : ℤ) < a + x.length then
        buf.getD i 0 + x.getD (((i : ℤ) - a).toNat) 0
      else buf.getD i 0) := by
  have h1 : ¬ (a < 0) := not_lt.mpr ha
  have h2 : min a (buf.length : ℤ) = a := min_eq_left (by omega)
  have h3 : ¬ (a + (x.length : ℤ) < 0) := by omega
  have h4 : min (a + (x.length : ℤ)) (buf.length : ℤ) = a + x.length :=
    min_eq_left (by omega)
  simp only [sliceAdd, if_neg h1, h2, if_neg h3, h4]
  rw [if_pos (by omega)]

/-- A successful in-range slice addition implies the slice fits. -/
lemma sliceAdd_fit (buf x : List ℚ) (a : ℤ) (out : List ℚ) (ha : 0 ≤ a)
    (hx : x ≠ []) (h : sliceAdd buf x a = some out) :
    a + (x.length : ℤ) ≤ buf.length := by
  by_contra hcon
  push_neg at hcon
  simp only [sliceAdd] at h
  rw [if_neg (not_lt.mpr ha), if_neg (by omega : ¬ (a + (x.length : ℤ) < 0)),
    min_eq_right hcon.le] at h
  split_ifs at h with hc
  rcases min_choice a (buf.length : ℤ) with hm | hm <;> rw [hm] at hc
  · omega
  · exact hx (List.length_eq_zero.mp (by omega))

/-- Elementwise description of a successful in-range slice addition. -/
lemma sliceAdd_getD (buf x : List ℚ) (a : ℤ) (out : List ℚ) (ha : 0 ≤ a)
    (hfit : a + (x.length : ℤ) ≤ buf.length)
    (h : sliceAdd buf x a = some out) (i : ℕ) (hi : i < buf.length) :
    out.getD i 0 = buf.getD i 0 +
      (if a ≤ (i : ℤ) ∧ (i : ℤ) < a + x.length then
        x.getD (((i : ℤ) - a).toNat) 0 else 0) := by
  rw [sliceAdd_eq buf x a ha hfit] at h
  injection h with h
  subst h
  rw [List.getD_eq_getElem _ _ (by simpa using hi)]
  simp only [List.getElem_map, List.getElem_range]
  split_ifs with hc
  · rfl
  · exact (add_zero _).symm

lemma getD_map_scale (seed : List ℚ) (c : ℚ) (k : ℕ) :
    ((seed.map fun x => x * c).getD k 0) = seed.getD k 0 * c := by
  by_cases hk : k < seed.length
  · rw [List.getD_eq_getElem _ _ (by simpa using hk), List.getD_eq_getElem _ _ hk,
      List.getElem_map]
  · rw [List.getD_eq_default _ _ (by simpa using not_lt.mp hk),
      List.getD_eq_default _ _ (not_lt.mp hk), zero_mul]

lemma applyEchoes_length (seed : List ℚ) (amplitude gamma t_echo del_t_echo ts : ℚ) :
    ∀ (js : List ℕ) (buf out : List ℚ),
      applyEchoes seed amplitude gamma t_echo del_t_echo ts js buf = some out →
      out.length = buf.length := by
  intro js
  induction js with
  | nil =>
    intro buf out h
    simp only [applyEchoes] at h
    injection h with h
    rw [h]
  | cons j js ih =>
    intro buf out h
    simp only [applyEchoes] at h
    obtain ⟨buf2, hs, h2⟩ := Option.bind_eq_some.mp h
    rw [ih buf2 out h2, sliceAdd_length _ _ _ _ hs]

/-- A successful run of the echo loop adds, per index, the sum of the
per-echo contributions: overlapping echoes sum rather than overwrite. -/
lemma applyEchoes_getD (seed : List ℚ) (amplitude gamma t_echo del_t_echo ts : ℚ)
    (hts : 0 < ts) (hte : 0 ≤ t_echo) (hde : 0 ≤ del_t_echo) (hseed : seed ≠ []) :
    ∀ (js : List ℕ) (buf out : List ℚ),
      applyEchoes seed amplitude gamma t_echo del_t_echo ts js buf = some out →
      ∀ i < buf.length,
        out.getD i 0 = buf.getD i 0 +
          (js.map fun j => echoContrib seed amplitude gamma t_echo del_t_echo ts j i).sum := by
  intro js
  induction js with
  | nil =>
    intro buf out h i hi
    simp only [applyEchoes] at h
    injection h with h
    rw [h]
    simp
  | cons j js ih =>
    intro buf out h i hi
    simp only [applyEchoes] at h
    obtain ⟨buf2, hs, h⟩ := Option.bind_eq_some.mp h
    · have ha : 0 ≤ echoOffset t_echo del_t_echo ts j :=
        echoOffset_nonneg t_echo del_t_echo ts j hts hte hde
      have hxne : (seed.map fun x => x * amplitude * gamma ^ j * (-1 : ℚ) ^ (j + 1)) ≠ [] := by
        simpa using hseed
      have hfit := sliceAdd_fit _ _ _ _ ha hxne hs
      have hlen2 : buf2.length = buf.length := sliceAdd_length _ _ _ _ hs
      have hstep := sliceAdd_getD _ _ _ _ ha hfit hs i hi
      have htail := ih buf2 out h i (by omega)
      rw [htail, hstep]
      have hcontrib :
          (if echoOffset t_echo del_t_echo ts j ≤ (i : ℤ) ∧
              (i : ℤ) < echoOffset t_echo del_t_echo ts j +
                (seed.map fun x => x * amplitude * gamma ^ j * (-1 : ℚ) ^ (j + 1)).length then
            (seed.map fun x => x * amplitude * gamma ^ j * (-1 : ℚ) ^ (j + 1)).getD
              (((i : ℤ) - echoOffset t_echo del_t_echo ts j).toNat) 0 else 0) =
          echoContrib seed amplitude gamma t_echo del_t_echo ts j i := by

        simp only [echoContrib, List.length_map]
        split_ifs with hc
        · have := getD_map_scale seed (amplitude * gamma ^ j * (-1 : ℚ) ^ (j + 1))
            (((i : ℤ) - echoOffset t_echo del_t_echo ts j).toNat)
          have harr : (fun (x : ℚ) => x * amplitude * gamma ^ j * (-1 : ℚ) ^ (j + 1)) =
              fun (x : ℚ) => x * (amplitude * gamma ^ j * (-1 : ℚ) ^ (j + 1)) := by
            funext x
            ring
          rw [harr, this]
          ring
        · rfl
      rw [hcontrib]
      simp only [List.map_cons, List.sum_cons]
      ring

lemma magSq_length (hp hc : List ℚ) (hlen : hc.length = hp.length) :
    (magSq hp hc).length = hp.length := by
  simp [magSq, hlen]

lemma magSq_getD (hp hc : List ℚ) (hlen : hc.length = hp.length) (j : ℕ)
    (hj : j < hp.length) :
    (magSq hp hc).getD j 0 =
      hp.getD j 0 * hp.getD j 0 + hc.getD j 0 * hc.getD j 0 := by
  rw [List.getD_eq_getElem _ _ (by rw [magSq_length hp hc hlen]; exact hj)]
  simp only [magSq, List.getElem_zipWith]
  rw [List.getD_eq_getElem _ _ hj, List.getD_eq_getElem _ _ (by omega)]

/-- C8: the merger time used for tapering is the sample time at the index of
the global maximum of the elementwise magnitude of `hp + 1j*hc`, ties broken
by the first occurrence, and it is exactly one input sample's time. -/
theorem merger_time_first_max (hp hc : List ℚ) (epoch delta_t : ℚ)
    (hne : hp ≠ []) (hlen : hc.length = hp.length) :
    mergerIdx hp hc < hp.length ∧
    (∀ j < hp.length,
      Real.sqrt ((hp.getD j 0 : ℝ) ^ 2 + (hc.getD j 0 : ℝ) ^ 2) ≤
        Real.sqrt ((hp.getD (mergerIdx hp hc) 0 : ℝ) ^ 2 +
          (hc.getD (mergerIdx hp hc) 0 : ℝ) ^ 2)) ∧
    (∀ j < mergerIdx hp hc,
      Real.sqrt ((hp.getD j 0 : ℝ) ^ 2 + (hc.getD j 0 : ℝ) ^ 2) <
        Real.sqrt ((hp.getD (mergerIdx hp hc) 0 : ℝ) ^ 2 +
          (hc.getD (mergerIdx hp hc) 0 : ℝ) ^ 2)) ∧
    tMerger hp hc epoch delta_t = sampleTime epoch delta_t (mergerIdx hp hc) := by
  have hms := magSq_length hp hc hlen
  have hnem : magSq hp hc ≠ [] := by
    have : 0 < (magSq hp hc).length := by
      rw [hms]
      exact List.length_pos.mpr hne
    exact List.ne_nil_of_length_pos this
  obtain ⟨h1, h2, h3⟩ := argmaxFirst_spec (magSq hp hc) hnem
  have hIdef : mergerIdx hp hc = argmaxFirst (magSq hp hc) := rfl
  have hI : mergerIdx hp hc < hp.length := by rw [hIdef, ← hms]; exact h1
  refine ⟨hI, ?_, ?_, rfl⟩
  · intro j hj
    have hq := h2 j (by rw [hms]; exact hj)
    rw [← hIdef] at hq
    rw [magSq_getD hp hc hlen j hj, magSq_getD hp hc hlen _ hI] at hq
    apply Real.sqrt_le_sqrt
    simp only [pow_two]
    exact_mod_cast hq
  · intro j hj
    rw [← hIdef] at h3
    have hjlen : j < hp.length := lt_trans hj hI
    have hq := h3 j hj
    rw [magSq_getD hp hc hlen j hjlen, magSq_getD hp hc hlen _ hI] at hq
    apply Real.sqrt_lt_sqrt (by positivity)
    simp only [pow_two]
    exact_mod_cast hq

/-- C8 witness: the theorem applied to a concrete waveform pair. -/
theorem merger_time_first_max_witness :
    mergerIdx [1, 3, 3] [2, 1, 1] < 3 ∧
    (∀ j < 3,
      Real.sqrt ((([1, 3, 3] : List ℚ).getD j 0 : ℝ) ^ 2 +
          (([2, 1, 1] : List ℚ).getD j 0 : ℝ) ^ 2) ≤
        Real.sqrt ((([1, 3, 3] : List ℚ).getD (mergerIdx [1, 3, 3] [2, 1, 1]) 0 : ℝ) ^ 2 +
          (([2, 1, 1] : List ℚ).getD (mergerIdx [1, 3, 3] [2, 1, 1]) 0 : ℝ) ^ 2)) ∧
    (∀ j < mergerIdx [1, 3, 3] [2, 1, 1],
      Real.sqrt ((([1, 3, 3] : List ℚ).getD j 0 : ℝ) ^ 2 +
          (([2, 1, 1] : List ℚ).getD j 0 : ℝ) ^ 2) <
        Real.sqrt ((([1, 3, 3] : List ℚ).getD (mergerIdx [1, 3, 3] [2, 1, 1]) 0 : ℝ) ^ 2 +
          (([2, 1, 1] : List ℚ).getD (mergerIdx [1, 3, 3] [2, 1, 1]) 0 : ℝ) ^ 2)) ∧
    tMerger [1, 3, 3] [2, 1, 1] 0 1 = sampleTime 0 1 (mergerIdx [1, 3, 3] [2, 1, 1]) :=
  merger_time_first_max [1, 3, 3] [2, 1, 1] 0 1 (by decide) (by decide)

/-- C7: the taper coefficient is elementwise exactly
`0.5 * (1 + tanh(0.5 * ω(t) * (t - t_merger - t0trunc)))` with each sample's
own frequency sample, and the seed is the elementwise product of each
polarization with this taper. -/
theorem taper_formula (tanh : ℚ → ℚ) (epoch delta_t t0trunc t_merger : ℚ)
    (omega hp : List ℚ) (i : ℕ) (hi : i < hp.length) :
    (taperCoeff tanh epoch delta_t t0trunc t_merger omega hp.length).getD i 0 =
      1/2 * (1 + tanh (1/2 * omega.getD i 0 *
        (sampleTime epoch delta_t i - t_merger - t0trunc))) ∧
    (List.zipWith (· * ·) hp
        (taperCoeff tanh epoch delta_t t0trunc t_merger omega hp.length)).getD i 0 =
      hp.getD i 0 *
        (taperCoeff tanh epoch delta_t t0trunc t_merger omega hp.length).getD i 0 := by
  have hlen : (taperCoeff tanh epoch delta_t t0trunc t_merger omega hp.length).length =
      hp.length := by
    simp [taperCoeff]
  have h1 : (taperCoeff tanh epoch delta_t t0trunc t_merger omega hp.length).getD i 0 =
      truncfunc tanh (sampleTime epoch delta_t i) t0trunc t_merger (omega.getD i 0) := by
    rw [List.getD_eq_getElem _ _ (by rw [hlen]; exact hi)]
    simp [taperCoeff]
  refine ⟨by rw [h1]; rfl, ?_⟩
  rw [List.getD_eq_getElem _ _ (by simp [hlen]; omega), List.getElem_zipWith,
    List.getD_eq_getElem _ _ hi, List.getD_eq_getElem _ _ (by rw [hlen]; exact hi)]

/-- C7 witness: the theorem applied at a concrete sample index. -/
theorem taper_formula_witness :
    (taperCoeff (fun q => q) 0 1 0 2 [3, 4] 2).getD 1 0 =
      1/2 * (1 + (fun (q : ℚ) => q) (1/2 * ([3, 4] : List ℚ).getD 1 0 *
        (sampleTime 0 1 1 - 2 - 0))) ∧
    (List.zipWith (· * ·) [5, 6] (taperCoeff (fun q => q) 0 1 0 2 [3, 4] 2)).getD 1 0 =
      ([5, 6] : List ℚ).getD 1 0 * (taperCoeff (fun q => q) 0 1 0 2 [3, 4] 2).getD 1 0 :=
  taper_formula (fun q => q) 0 1 0 2 [3, 4] [5, 6] 1 (by decide)

/-- C1: in the correction branch the code assigns `omega_temp[:k] = omega[k]`
and then rebinds `omega = omega_temp`, so every index from the boundary on
holds `0`, not the computed instantaneous frequency: with
`hp = hc = [0, 1, 1]` (identical leading zero-run length 1) and raw estimate
`[5, 7]`, the full-length array is `[7, 0, 0]` — index 1 holds `0` although
the computed frequency there is `7`. -/
theorem omegaCorrect_discards_computed_frequency :
    omegaCorrect [0, 1, 1] [0, 1, 1] [5, 7] = some ([7, 0, 0], false) ∧
    ([7, 0, 0] : List ℚ).getD 1 0 = 0 ∧
    ([5, 7] : List ℚ).getD 1 0 = 7 := by
  refine ⟨by decide, by decide, by decide⟩

/-- C2 counterexample: `hp = [0, 1]` begins with an exact zero, yet the
correction is skipped (`correctionActive` is false and the result is the raw
estimate resized, with no scan and no warning), because the code's guard is
`hp[0] == 0 and hc[0] == 0`, not "at least one channel begins with zero". -/
theorem correction_skip_counterexample :
    ([0, 1] : List ℚ).headI = 0 ∧
    correctionActive [0, 1] [1, 1] = false ∧
    omegaCorrect [0, 1] [1, 1] [5, 7] = some ([5, 7], false) := by
  refine ⟨by decide, by decide, by decide⟩

/-- C2 amended: the zero-run correction is skipped exactly when NOT both
channels begin with an exact zero (the raw estimate is then used, resized to
the original length, with no warning); whenever both begin with zero, the
leading zero-run lengths are detected independently by linear scan, the
warning is emitted exactly when the two lengths differ, and the correction
fills the head up to the larger of the two lengths with the raw frequency
value at that boundary. -/
theorem omegaCorrect_spec (hp hc omegaRaw : List ℚ) :
    (correctionActive hp hc = true ↔ hp.headI = 0 ∧ hc.headI = 0) ∧
    (correctionActive hp hc = false →
      omegaCorrect hp hc omegaRaw = some (resizeTo hp.length omegaRaw, false)) ∧
    (∀ khp khc : ℕ, ∀ v : ℚ,
      hp.headI = 0 → hc.headI = 0 →
      (khp < hp.length ∧ hp.getD khp 0 ≠ 0 ∧ ∀ j < khp, hp.getD j 0 = 0) →
      (khc < hc.length ∧ hc.getD khc 0 ≠ 0 ∧ ∀ j < khc, hc.getD j 0 = 0) →
      omegaRaw.get? (max khp khc) = some v →
      omegaCorrect hp hc omegaRaw =
        some (List.replicate (min (max khp khc) hp.length) v ++
          List.replicate (hp.length - min (max khp khc) hp.length) 0,
          decide (khp ≠ khc))) := by
  refine ⟨by simp [correctionActive], ?_, ?_⟩
  · intro hskip
    unfold omegaCorrect
    rw [hskip]
    rfl
  · intro khp khc v hhp hhc hkhp hkhc hv
    have h1 : findFirstNonzero hp = some khp := (findFirstNonzero_some_iff hp khp).mpr hkhp
    have h2 : findFirstNonzero hc = some khc := (findFirstNonzero_some_iff hc khc).mpr hkhc
    have hact : correctionActive hp hc = true := by
      simp [correctionActive, hhp, hhc]
    have hv' : omegaRaw[khp ⊔ khc]? = some v := by
      rw [← List.get?_eq_getElem?]
      exact hv
    unfold omegaCorrect
    rw [hact, h1, h2]
    simp [hv']

/-- C2 witness: a skip instance and a correction instance with unequal
zero-run lengths (warning emitted, larger length used as boundary). -/
theorem omegaCorrect_spec_witness :
    omegaCorrect [1, 2] [1, 1] [4] = some (resizeTo 2 [4], false) ∧
    omegaCorrect [0, 0, 1] [0, 2, 3] [5, 7, 9] =
      some (List.replicate (min (max 2 1) 3) 9 ++
        List.replicate (3 - min (max 2 1) 3) 0, decide ((2 : ℕ) ≠ 1)) :=
  ⟨(omegaCorrect_spec [1, 2] [1, 1] [4]).2.1 (by decide),
    (omegaCorrect_spec [0, 0, 1] [0, 2, 3] [5, 7, 9]).2.2 2 1 9 (by decide) (by decide)
      (by decide) (by decide) (by decide)⟩

/-- C9: the zero-run scan is unguarded: on an all-zero channel it has no
in-bounds stopping index (the Python `while` walks past the end and the read
raises IndexError), so with `hp = [0, 0]`, `hc = [0, 1]` the correction
errors instead of terminating in bounds. -/
theorem zero_run_scan_out_of_bounds :
    findFirstNonzero (List.replicate 2 (0 : ℚ)) = none ∧
    omegaCorrect [0, 0] [0, 1] [5, 7] = none := by
  refine ⟨by decide, by decide⟩

/-- C3: `add_echoes` performs no parameter validation: called with
`n_echoes = 0` (violating `n_echoes ≥ 1`) on otherwise valid inputs it does
not fail with an invalid-parameter condition — it silently returns buffers,
and the unconditional first-echo write has still deposited a scaled copy of
the seed. -/
theorem addEchoes_no_validation :
    addEchoes [1, 2] [2, 1] 0 1 (fun _ => 0) [3, 4] 0 1 1 0 1 (1/2) none =
      some ([0, -(1/2), -1], [0, -1, -(1/2)]) := by
  norm_num [addEchoes, omegaCorrect, correctionActive, resizeTo, taperCoeff, truncfunc,
    sampleTime, tMerger, mergerIdx, magSq, argmaxFirst, sliceAdd, applyEchoes, echoOffset,
    pyRound, List.range_succ, List.range']
  norm_num [show (3 : ℤ).toNat = 3 from rfl, List.range_succ]

/-- C6: under the caller contract every echo offset satisfies
`0 ≤ offset` and `offset + L ≤` the allocated output-buffer length
`L + ceil((t_echo + n_echoes*del_t_echo)/timestep)`, so no echo write exceeds
the allocated buffers. -/
theorem echo_offsets_fit (t_echo del_t_echo ts : ℚ) (n_echoes : ℤ) (L : ℕ)
    (hts : 0 < ts) (hte : 0 ≤ t_echo) (hde : 0 ≤ del_t_echo) (hL : 1 ≤ L)
    (hn : 1 ≤ n_echoes) :
    ∀ j : ℕ, (j : ℤ) < n_echoes →
      0 ≤ echoOffset t_echo del_t_echo ts j ∧
      echoOffset t_echo del_t_echo ts j + L ≤
        (List.replicate ((L : ℤ) +
          ⌈(t_echo + (n_echoes : ℚ) * del_t_echo) / ts⌉).toNat (0 : ℚ)).length := by
  intro j hj
  have hm : 0 ≤ ⌈(t_echo + (n_echoes : ℚ) * del_t_echo) / ts⌉ := by
    apply Int.ceil_nonneg
    apply div_nonneg _ (le_of_lt hts)
    have h1 : (0 : ℚ) ≤ (n_echoes : ℚ) * del_t_echo := by
      apply mul_nonneg _ hde
      have h0 : (0 : ℤ) ≤ n_echoes := by omega
      exact_mod_cast h0
    linarith
  have hoff := echoOffset_nonneg t_echo del_t_echo ts j hts hte hde
  have hle := echoOffset_le_ceil t_echo del_t_echo ts n_echoes j hts hde hj
  refine ⟨hoff, ?_⟩
  rw [List.length_replicate]
  omega

/-- C6 witness: the bound at a concrete call. -/
theorem echo_offsets_fit_witness :
    0 ≤ echoOffset 1 1 1 1 ∧
    echoOffset 1 1 1 1 + 2 ≤
      (List.replicate ((2 : ℤ) + ⌈((1 : ℚ) + (2 : ℤ) * 1) / 1⌉).toNat (0 : ℚ)).length :=
  echo_offsets_fit 1 1 1 2 2 (by norm_num) (by norm_num) (by norm_num) (by norm_num)
    (by norm_num) 1 (by norm_num)
lemma applyEchoes_succeeds (seed : List ℚ) (amplitude gamma t_echo del_t_echo ts : ℚ) :
    ∀ (js : List ℕ) (buf : List ℚ),
      (∀ j ∈ js, 0 ≤ echoOffset t_echo del_t_echo ts j ∧
        echoOffset t_echo del_t_echo ts j + (seed.length : ℤ) ≤ buf.length) →
      ∃ out, applyEchoes seed amplitude gamma t_echo del_t_echo ts js buf = some out ∧
        out.length = buf.length := by
  intro js
  induction js with
  | nil =>
    intro buf _
    exact ⟨buf, rfl, rfl⟩
  | cons j js ih =>
    intro buf h
    obtain ⟨h0a, h0b⟩ := h j (by simp)
    have hx : (seed.map fun x => x * amplitude * gamma ^ j * (-1 : ℚ) ^ (j + 1)).length =
        seed.length := by simp
    have hs := sliceAdd_eq buf
      (seed.map fun x => x * amplitude * gamma ^ j * (-1 : ℚ) ^ (j + 1))
      (echoOffset t_echo del_t_echo ts j) h0a (by rw [hx]; exact h0b)
    have hlen2 := sliceAdd_length _ _ _ _ hs
    obtain ⟨out, hout, hlo⟩ := ih _ (fun j' hj' => by
      rw [hlen2]
      exact h j' (by simp [hj']))
    refine ⟨out, ?_, by rw [hlo, hlen2]⟩
    simp only [applyEchoes]
    rw [hs]
    simpa using hout

lemma m_nonneg (t_echo del_t_echo ts : ℚ) (n_echoes : ℤ)
    (hts : 0 < ts) (hte : 0 ≤ t_echo) (hde : 0 ≤ del_t_echo) (hn : 1 ≤ n_echoes) :
    0 ≤ ⌈(t_echo + (n_echoes : ℚ) * del_t_echo) / ts⌉ := by
  apply Int.ceil_nonneg
  apply div_nonneg _ (le_of_lt hts)
  have h1 : (0 : ℚ) ≤ (n_echoes : ℚ) * del_t_echo := by
    apply mul_nonneg _ hde
    have h0 : (0 : ℤ) ≤ n_echoes := by omega
    exact_mod_cast h0
  linarith

lemma echoOffset_zero (t_echo del_t_echo ts : ℚ) :
    echoOffset t_echo del_t_echo ts 0 = pyRound (t_echo / ts) := by
  simp [echoOffset]

/-- C5: under the caller contract (and a successful frequency stage), the
call succeeds and each returned sequence has length equal to the input length
plus `ceil((t_echo + n_echoes*del_t_echo)/timestep)`, the length at which the
two output buffers were allocated zero-filled. -/
theorem addEchoes_output_length (hp hc : List ℚ) (epoch delta_t : ℚ) (tanh : ℚ → ℚ)
    (omegaRaw : List ℚ) (t0trunc t_echo del_t_echo : ℚ) (n_echoes : ℤ)
    (amplitude gamma : ℚ) (timestep : Option ℚ) (om : List ℚ) (w : Bool)
    (hlen : hc.length = hp.length)
    (hts : 0 < timestep.getD delta_t) (hte : 0 ≤ t_echo) (hde : 0 ≤ del_t_echo)
    (hn : 1 ≤ n_echoes)
    (hΩ : omegaCorrect hp hc omegaRaw = some (om, w)) :
    ∃ op oc : List ℚ,
      addEchoes hp hc epoch delta_t tanh omegaRaw t0trunc t_echo del_t_echo n_echoes
        amplitude gamma timestep = some (op, oc) ∧
      (op.length : ℤ) = hp.length +
        ⌈(t_echo + (n_echoes : ℚ) * del_t_echo) / timestep.getD delta_t⌉ ∧
      (oc.length : ℤ) = hc.length +
        ⌈(t_echo + (n_echoes : ℚ) * del_t_echo) / timestep.getD delta_t⌉ := by
  set ts := timestep.getD delta_t with hts_def
  set m := ⌈(t_echo + (n_echoes : ℚ) * del_t_echo) / ts⌉ with hm_def
  have hm : 0 ≤ m := m_nonneg t_echo del_t_echo ts n_echoes hts hte hde hn
  set n := hp.length with hn_def
  set tc := taperCoeff tanh epoch delta_t t0trunc (tMerger hp hc epoch delta_t) om n
    with htc_def
  have htclen : tc.length = n := by simp [htc_def, taperCoeff]
  set hpT := List.zipWith (· * ·) hp tc with hpT_def
  set hcT := List.zipWith (· * ·) hc tc with hcT_def
  have hpTlen : hpT.length = n := by simp [hpT_def, htclen, hn_def]
  have hcTlen : hcT.length = n := by simp [hcT_def, htclen, hlen, hn_def]
  set nOut := ((n : ℤ) + m).toNat with hnOut_def
  have hnOutZ : (nOut : ℤ) = (n : ℤ) + m := Int.toNat_of_nonneg (by omega)
  -- bounds for every echo offset, including the unrolled first echo
  have hoff : ∀ j : ℕ, (j : ℤ) < n_echoes →
      0 ≤ echoOffset t_echo del_t_echo ts j ∧
      echoOffset t_echo del_t_echo ts j + (n : ℤ) ≤ (nOut : ℤ) := by
    intro j hj
    refine ⟨echoOffset_nonneg t_echo del_t_echo ts j hts hte hde, ?_⟩
    have := echoOffset_le_ceil t_echo del_t_echo ts n_echoes j hts hde hj
    omega
  have hoff0 := hoff 0 (by omega)
  rw [echoOffset_zero] at hoff0
  -- first echo on the plus buffer
  have hs1 := sliceAdd_eq (List.replicate nOut (0 : ℚ))
    (hpT.map fun x => x * amplitude * (-1)) (pyRound (t_echo / ts)) hoff0.1
    (by rw [List.length_map, hpTlen, List.length_replicate]; exact hoff0.2)
  have hs1len := sliceAdd_length _ _ _ _ hs1
  -- first echo on the cross buffer
  have hs2 := sliceAdd_eq (List.replicate nOut (0 : ℚ))
    (hcT.map fun x => x * amplitude * (-1)) (pyRound (t_echo / ts)) hoff0.1
    (by rw [List.length_map, hcTlen, List.length_replicate]; exact hoff0.2)
  have hs2len := sliceAdd_length _ _ _ _ hs2
  -- the loop over the remaining echoes
  have hrange : ∀ j ∈ List.range' 1 (n_echoes - 1).toNat, (j : ℤ) < n_echoes := by
    intro j hj
    have := List.mem_range'_1.mp hj
    omega
  obtain ⟨hpF, ha1, ha1len⟩ := applyEchoes_succeeds hpT amplitude gamma t_echo del_t_echo ts
    (List.range' 1 (n_echoes - 1).toNat) _ (fun j hj => by
      have h := hoff j (hrange j hj)
      constructor
      · exact h.1
      · rw [hs1len, List.length_replicate, hpTlen]
        exact h.2)
  obtain ⟨hcF, ha2, ha2len⟩ := applyEchoes_succeeds hcT amplitude gamma t_echo del_t_echo ts
    (List.range' 1 (n_echoes - 1).toNat) _ (fun j hj => by
      have h := hoff j (hrange j hj)
      constructor
      · exact h.1
      · rw [hs2len, List.length_replicate, hcTlen]
        exact h.2)
  refine ⟨hpF, hcF, ?_, ?_, ?_⟩
  · unfold addEchoes
    rw [hΩ]
    simp only [Option.some_bind]
    rw [← hts_def, ← hm_def, ← hn_def, hlen, ← htc_def, ← hpT_def, ← hcT_def]
    rw [if_neg hts.ne', if_neg (by push_neg; constructor <;> omega)]
    rw [← hnOut_def]
    rw [hs1, hs2]
    simp only [Option.some_bind]
    rw [ha1, ha2]
    rfl
  · rw [ha1len, hs1len, List.length_replicate]
    omega
  · rw [ha2len, hs2len, List.length_replicate, hlen]
    omega

/-- C5 witness: a concrete successful call with the stated lengths. -/
theorem addEchoes_output_length_witness :
    ∃ op oc : List ℚ,
      addEchoes [1, 2] [2, 1] 0 1 (fun _ => 0) [3, 4] 0 1 1 2 1 (1/2) none =
        some (op, oc) ∧
      (op.length : ℤ) = 2 + ⌈((1 : ℚ) + ((2 : ℤ) : ℚ) * 1) / ((none : Option ℚ).getD 1)⌉ ∧
      (oc.length : ℤ) = 2 + ⌈((1 : ℚ) + ((2 : ℤ) : ℚ) * 1) / ((none : Option ℚ).getD 1)⌉ := by
  simpa using addEchoes_output_length [1, 2] [2, 1] 0 1 (fun _ => 0) [3, 4] 0 1 1 2 1 (1/2)
    none [3, 4] false (by decide) (by norm_num) (by norm_num) (by norm_num) (by norm_num)
    (by decide)

lemma range_toNat_cons (n_echoes : ℤ) (hn : 1 ≤ n_echoes) :
    List.range n_echoes.toNat = 0 :: List.range' 1 (n_echoes - 1).toNat := by
  have h1 : n_echoes.toNat = (n_echoes - 1).toNat + 1 := by omega
  rw [h1, List.range_eq_range']
  rfl

/-- C4: each echo `j` (from `0` to `n_echoes - 1`) contributes a copy of the
tapered seed scaled by `amplitude * gamma^j * (-1)^(j+1)` starting at sample
offset `round((t_echo + del_t_echo*j)/timestep)`, and the output at every
index is the SUM of these contributions (overlapping echoes add, the `j = 0`
echo carrying scale `-amplitude`). -/
theorem addEchoes_superposition (hp hc : List ℚ) (epoch delta_t : ℚ) (tanh : ℚ → ℚ)
    (omegaRaw : List ℚ) (t0trunc t_echo del_t_echo : ℚ) (n_echoes : ℤ)
    (amplitude gamma : ℚ) (timestep : Option ℚ) (om : List ℚ) (w : Bool)
    (op oc : List ℚ)
    (hlen : hc.length = hp.length) (hne : hp ≠ [])
    (hts : 0 < timestep.getD delta_t) (hte : 0 ≤ t_echo) (hde : 0 ≤ del_t_echo)
    (hn : 1 ≤ n_echoes)
    (hΩ : omegaCorrect hp hc omegaRaw = some (om, w))
    (h : addEchoes hp hc epoch delta_t tanh omegaRaw t0trunc t_echo del_t_echo n_echoes
      amplitude gamma timestep = some (op, oc)) :
    ∀ i < op.length,
      op.getD i 0 = ((List.range n_echoes.toNat).map fun j =>
        echoContrib (List.zipWith (· * ·) hp (taperCoeff tanh epoch delta_t t0trunc
          (tMerger hp hc epoch delta_t) om hp.length)) amplitude gamma t_echo del_t_echo
          (timestep.getD delta_t) j i).sum ∧
      oc.getD i 0 = ((List.range n_echoes.toNat).map fun j =>
        echoContrib (List.zipWith (· * ·) hc (taperCoeff tanh epoch delta_t t0trunc
          (tMerger hp hc epoch delta_t) om hp.length)) amplitude gamma t_echo del_t_echo
          (timestep.getD delta_t) j i).sum := by
  set ts := timestep.getD delta_t with hts_def
  set m := ⌈(t_echo + (n_echoes : ℚ) * del_t_echo) / ts⌉ with hm_def
  have hm : 0 ≤ m := m_nonneg t_echo del_t_echo ts n_echoes hts hte hde hn
  set n := hp.length with hn_def
  set tc := taperCoeff tanh epoch delta_t t0trunc (tMerger hp hc epoch delta_t) om n
    with htc_def
  have htclen : tc.length = n := by simp [htc_def, taperCoeff]
  set hpT := List.zipWith (· * ·) hp tc with hpT_def
  set hcT := List.zipWith (· * ·) hc tc with hcT_def
  have hpTlen : hpT.length = n := by simp [hpT_def, htclen, hn_def]
  have hcTlen : hcT.length = n := by simp [hcT_def, htclen, hlen, hn_def]
  have hnpos : 0 < n := List.length_pos.mpr hne
  have hpTne : hpT ≠ [] := by
    apply List.ne_nil_of_length_pos
    rw [hpTlen]
    exact hnpos
  have hcTne : hcT ≠ [] := by
    apply List.ne_nil_of_length_pos
    rw [hcTlen]
    exact hnpos
  set nOut := ((n : ℤ) + m).toNat with hnOut_def
  have hnOutZ : (nOut : ℤ) = (n : ℤ) + m := Int.toNat_of_nonneg (by omega)
  have hoff : ∀ j : ℕ, (j : ℤ) < n_echoes →
      0 ≤ echoOffset t_echo del_t_echo ts j ∧
      echoOffset t_echo del_t_echo ts j + (n : ℤ) ≤ (nOut : ℤ) := by
    intro j hj
    refine ⟨echoOffset_nonneg t_echo del_t_echo ts j hts hte hde, ?_⟩
    have := echoOffset_le_ceil t_echo del_t_echo ts n_echoes j hts hde hj
    omega
  have hoff0 := hoff 0 (by omega)
  rw [echoOffset_zero] at hoff0
  have hs1 := sliceAdd_eq (List.replicate nOut (0 : ℚ))
    (hpT.map fun x => x * amplitude * (-1)) (pyRound (t_echo / ts)) hoff0.1
    (by rw [List.length_map, hpTlen, List.length_replicate]; exact hoff0.2)
  have hs1len := sliceAdd_length _ _ _ _ hs1
  have hs2 := sliceAdd_eq (List.replicate nOut (0 : ℚ))
    (hcT.map fun x => x * amplitude * (-1)) (pyRound (t_echo / ts)) hoff0.1
    (by rw [List.length_map, hcTlen, List.length_replicate]; exact hoff0.2)
  have hs2len := sliceAdd_length _ _ _ _ hs2
  unfold addEchoes at h
  rw [hΩ] at h
  simp only [Option.some_bind] at h
  rw [← hts_def, ← hm_def, ← hn_def, hlen, ← htc_def, ← hpT_def, ← hcT_def] at h
  rw [if_neg hts.ne', if_neg (by push_neg; constructor <;> omega)] at h
  rw [← hnOut_def] at h
  rw [hs1, hs2] at h
  simp only [Option.some_bind] at h
  obtain ⟨hpF, ha1, h⟩ := Option.bind_eq_some.mp h
  obtain ⟨hcF, ha2, h⟩ := Option.bind_eq_some.mp h
  injection h with h
  injection h with h1 h2
  subst h1
  subst h2
  -- lengths of the intermediate buffers
  have hb1len : ∀ i : ℕ, i < hpF.length → i < nOut := by
    intro i hi
    rwa [applyEchoes_length _ _ _ _ _ _ _ _ _ ha1, hs1len, List.length_replicate] at hi
  intro i hi
  have hiOut : i < nOut := hb1len i hi
  -- the loop contributions
  have hloop1 := applyEchoes_getD hpT amplitude gamma t_echo del_t_echo ts hts hte hde hpTne
    _ _ _ ha1 i (by rw [hs1len, List.length_replicate]; exact hiOut)
  have hloop2 := applyEchoes_getD hcT amplitude gamma t_echo del_t_echo ts hts hte hde hcTne
    _ _ _ ha2 i (by rw [hs2len, List.length_replicate]; exact hiOut)
  -- the unrolled first write
  have hfirst : ∀ (seed : List ℚ), seed.length = n →
      ((List.range (List.replicate nOut (0 : ℚ)).length).map fun (i' : ℕ) =>
        if pyRound (t_echo / ts) ≤ (i' : ℤ) ∧
            (i' : ℤ) < pyRound (t_echo / ts) +
              (seed.map fun x => x * amplitude * (-1)).length then
          (List.replicate nOut (0 : ℚ)).getD i' 0 +
            (seed.map fun x => x * amplitude * (-1)).getD
              (((i' : ℤ) - pyRound (t_echo / ts)).toNat) 0
        else (List.replicate nOut (0 : ℚ)).getD i' 0).getD i 0 =
      echoContrib seed amplitude gamma t_echo del_t_echo ts 0 i := by
    intro seed hseedlen
    have hmaplen : ((List.range (List.replicate nOut (0 : ℚ)).length).map fun (i' : ℕ) =>
        if pyRound (t_echo / ts) ≤ (i' : ℤ) ∧
            (i' : ℤ) < pyRound (t_echo / ts) +
              (seed.map fun x => x * amplitude * (-1)).length then
          (List.replicate nOut (0 : ℚ)).getD i' 0 +
            (seed.map fun x => x * amplitude * (-1)).getD
              (((i' : ℤ) - pyRound (t_echo / ts)).toNat) 0
        else (List.replicate nOut (0 : ℚ)).getD i' 0).length = nOut := by
      simp
    rw [List.getD_eq_getElem _ _ (by rw [hmaplen]; exact hiOut)]
    simp only [List.getElem_map, List.getElem_range]
    have hrepl : (List.replicate nOut (0 : ℚ)).getD i 0 = 0 := by
      rw [List.getD_eq_getElem _ _ (by simpa using hiOut), List.getElem_replicate]
    have harr : (fun (x : ℚ) => x * amplitude * (-1)) =
        fun (x : ℚ) => x * (amplitude * (-1)) := by
      funext x
      ring
    simp only [echoContrib, echoOffset_zero, List.length_map, hrepl, zero_add, harr,
      getD_map_scale]
    split_ifs with hc1
    · ring
    · rfl
  have hsum1 : hpF.getD i 0 =
      ((List.range n_echoes.toNat).map fun j =>
        echoContrib hpT amplitude gamma t_echo del_t_echo ts j i).sum := by
    rw [hloop1, hfirst hpT hpTlen, range_toNat_cons n_echoes hn]
    simp
  have hsum2 : hcF.getD i 0 =
      ((List.range n_echoes.toNat).map fun j =>
        echoContrib hcT amplitude gamma t_echo del_t_echo ts j i).sum := by
    rw [hloop2, hfirst hcT hcTlen, range_toNat_cons n_echoes hn]
    simp
  exact ⟨hsum1, hsum2⟩

/-- C4 witness: a concrete two-echo call whose echoes overlap at index 2,
where the output is the sum of both contributions. -/
theorem addEchoes_superposition_witness :
    addEchoes [1, 2] [2, 1] 0 1 (fun _ => 0) [3, 4] 0 1 1 2 1 (1/2) none =
      some ([0, -(1/2), -(3/4), 1/2, 0], [0, -1, 0, 1/4, 0]) ∧
    (([0, -(1/2), -(3/4), 1/2, 0] : List ℚ).getD 2 0 =
      ((List.range (2 : ℤ).toNat).map fun j =>
        echoContrib (List.zipWith (· * ·) [1, 2] (taperCoeff (fun _ => 0) 0 1 0
          (tMerger [1, 2] [2, 1] 0 1) [3, 4] ([1, 2] : List ℚ).length)) 1 (1/2) 1 1
          ((none : Option ℚ).getD 1) j 2).sum ∧
      ([0, -1, 0, 1/4, 0] : List ℚ).getD 2 0 =
      ((List.range (2 : ℤ).toNat).map fun j =>
        echoContrib (List.zipWith (· * ·) [2, 1] (taperCoeff (fun _ => 0) 0 1 0
          (tMerger [1, 2] [2, 1] 0 1) [3, 4] ([1, 2] : List ℚ).length)) 1 (1/2) 1 1
          ((none : Option ℚ).getD 1) j 2).sum) := by
  have hconc : addEchoes [1, 2] [2, 1] 0 1 (fun _ => 0) [3, 4] 0 1 1 2 1 (1/2) none =
      some ([0, -(1/2), -(3/4), 1/2, 0], [0, -1, 0, 1/4, 0]) := by
    norm_num [addEchoes, omegaCorrect, correctionActive, resizeTo, taperCoeff, truncfunc,
      sampleTime, tMerger, mergerIdx, magSq, argmaxFirst, sliceAdd, applyEchoes, echoOffset,
      pyRound, List.range_succ, List.range']
    norm_num [show (5 : ℤ).toNat = 5 from rfl, List.range_succ]
  exact ⟨hconc, addEchoes_superposition [1, 2] [2, 1] 0 1 (fun _ => 0) [3, 4] 0 1 1 2 1
    (1/2) none [3, 4] false _ _ (by decide) (by decide) (by norm_num) (by norm_num)
    (by norm_num) (by norm_num) (by decide) hconc 2 (by norm_num)⟩

/-! ### Store-level model for the frame property

To state that `add_echoes` never mutates its input arrays, the numpy arrays
are cells of an explicit store and each statement of the source that
allocates or mutates an array becomes an explicit store operation:
`hp.numpy()`/`hc.numpy()` are views of the input cells (references, not
copies); `hp_numpy = hp_numpy * tapercoeff` REbinds the local name to a
freshly computed array; `omega_temp[:k] = omega[k]`, `omega.resize(...)` and
the `+=` slice assignments (each loop iteration folded into one final write
per buffer) mutate only cells allocated inside the call. -/

abbrev Store := List (List ℚ)

/-- Read the array in cell `r`. -/
def readA (σ : Store) (r : ℕ) : List ℚ := σ.getD r []

/-- Overwrite the array in cell `r` in place. -/
def writeA (σ : Store) (r : ℕ) (v : List ℚ) : Store := σ.set r v

/-- `preservesFrom σ0 σ`: the store grew from `σ0` and every original cell
still holds its original array. -/
def preservesFrom (σ0 σ : Store) : Prop :=
  σ0.length ≤ σ.length ∧ ∀ r < σ0.length, readA σ r = readA σ0 r

lemma preservesFrom_refl (σ0 : Store) : preservesFrom σ0 σ0 :=
  ⟨le_refl _, fun _ _ => rfl⟩

lemma preservesFrom_trans (σ0 σ1 σ2 : Store) (h1 : preservesFrom σ0 σ1)
    (h2 : preservesFrom σ1 σ2) : preservesFrom σ0 σ2 := by
  refine ⟨le_trans h1.1 h2.1, fun r hr => ?_⟩
  rw [h2.2 r (lt_of_lt_of_le hr h1.1), h1.2 r hr]

lemma preservesFrom_alloc (σ0 σ : Store) (v : List ℚ) (h : preservesFrom σ0 σ) :
    preservesFrom σ0 (σ ++ [v]) := by
  refine ⟨by simpa using le_trans h.1 (by omega), fun r hr => ?_⟩
  rw [← h.2 r hr]
  unfold readA
  rw [List.getD_append _ _ _ _ (lt_of_lt_of_le hr h.1)]

lemma preservesFrom_write (σ0 σ : Store) (r : ℕ) (v : List ℚ)
    (h : preservesFrom σ0 σ) (hr : σ0.length ≤ r) :
    preservesFrom σ0 (writeA σ r v) := by
  refine ⟨by simpa [writeA] using h.1, fun r' hr' => ?_⟩
  rw [← h.2 r' hr']
  unfold readA writeA
  rw [List.getD_eq_getElem?_getD, List.getD_eq_getElem?_getD,
    List.getElem?_set_ne (by omega)]

/-- The zero-padding correction of `add_echoes` at store level: it mutates
only `omega_temp`'s fresh cell (`rtmp`) via `omega_temp[:k] = omega[k]` and
rebinds the name `omega` to one of the two fresh cells. -/
def corrStep (σ2 : Store) (rtmp rom : ℕ) (hp hc omegaRaw : List ℚ) :
    Option (Store × ℕ) :=
  if correctionActive hp hc then
    (findFirstNonzero hp).bind fun khp =>
    (findFirstNonzero hc).bind fun khc =>
    (omegaRaw.get? (max khp khc)).map fun v =>
      (writeA σ2 rtmp (List.replicate (min (max khp khc) hp.length) v ++
        List.replicate (hp.length - min (max khp khc) hp.length) 0), rtmp)
  else some (σ2, rom)

lemma corrStep_preserves (σ0 σ2 : Store) (rtmp rom : ℕ) (hp hc omegaRaw : List ℚ)
    (σ3 : Store) (r2 : ℕ)
    (h2 : preservesFrom σ0 σ2) (htmp : σ0.length ≤ rtmp) (hom : σ0.length ≤ rom)
    (h : corrStep σ2 rtmp rom hp hc omegaRaw = some (σ3, r2)) :
    preservesFrom σ0 σ3 ∧ σ0.length ≤ r2 := by
  unfold corrStep at h
  split_ifs at h with hact
  · obtain ⟨khp, hf1, h⟩ := Option.bind_eq_some.mp h
    obtain ⟨khc, hf2, h⟩ := Option.bind_eq_some.mp h
    obtain ⟨v, hv, h⟩ := Option.map_eq_some'.mp h
    injection h with ha hb
    subst ha
    subst hb
    exact ⟨preservesFrom_write σ0 σ2 rtmp _ h2 htmp, htmp⟩
  · injection h with h
    injection h with ha hb
    subst ha
    subst hb
    exact ⟨h2, hom⟩

/-- `add_echoes` at store level: `rp`, `rc` are the cells holding the two
input sample arrays; the result is the final store and, on success, the
references of the two output buffers. Every intermediate array the source
creates (`omega`, `omega_temp`, `tapercoeff`, the rebound `hp_numpy` and
`hc_numpy` products, `hparray`, `hcarray`) is freshly allocated; the only
in-place writes are to `omega_temp`/`omega`, `hparray` and `hcarray`. -/
def addEchoesProg (σ0 : Store) (rp rc : ℕ) (epoch delta_t : ℚ) (tanh : ℚ → ℚ)
    (omegaRaw : List ℚ) (t0trunc t_echo del_t_echo : ℚ) (n_echoes : ℤ)
    (amplitude gamma : ℚ) (timestep : Option ℚ) : Store × Option (ℕ × ℕ) :=
  let ts := timestep.getD delta_t
  let hp := readA σ0 rp
  let hc := readA σ0 rc
  let t_merger := tMerger hp hc epoch delta_t
  let rom := σ0.length
  let σ1 := σ0 ++ [omegaRaw]
  let rtmp := σ1.length
  let σ2 := σ1 ++ [List.replicate hp.length 0]
  match corrStep σ2 rtmp rom hp hc omegaRaw with
  | none => (σ2, none)
  | some (σ3, rom2) =>
    let σ4 := writeA σ3 rom2 (resizeTo hp.length (readA σ3 rom2))
    let omega := readA σ4 rom2
    let tc := taperCoeff tanh epoch delta_t t0trunc t_merger omega hp.length
    let hpT := List.zipWith (· * ·) hp tc
    let hcT := List.zipWith (· * ·) hc tc
    if ts = 0 then (σ4, none)
    else
      let m : ℤ := ⌈(t_echo + (n_echoes : ℚ) * del_t_echo) / ts⌉
      if (hp.length : ℤ) + m < 0 ∨ (hc.length : ℤ) + m < 0 then (σ4, none)
      else
        let rhp := σ4.length
        let σ5 := σ4 ++ [List.replicate ((hp.length : ℤ) + m).toNat 0]
        let rhc := σ5.length
        let σ6 := σ5 ++ [List.replicate ((hc.length : ℤ) + m).toNat 0]
        match sliceAdd (readA σ6 rhp) (hpT.map fun x => x * amplitude * (-1))
            (pyRound (t_echo / ts)) with
        | none => (σ6, none)
        | some b1 =>
          let σ7 := writeA σ6 rhp b1
          match sliceAdd (readA σ7 rhc) (hcT.map fun x => x * amplitude * (-1))
              (pyRound (t_echo / ts)) with
          | none => (σ7, none)
          | some b2 =>
            let σ8 := writeA σ7 rhc b2
            match applyEchoes hpT amplitude gamma t_echo del_t_echo ts
                (List.range' 1 (n_echoes - 1).toNat) (readA σ8 rhp) with
            | none => (σ8, none)
            | some bp =>
              let σ9 := writeA σ8 rhp bp
              match applyEchoes hcT amplitude gamma t_echo del_t_echo ts
                  (List.range' 1 (n_echoes - 1).toNat) (readA σ9 rhc) with
              | none => (σ9, none)
              | some bc => (writeA σ9 rhc bc, some (rhp, rhc))

/-- C10: `add_echoes` never mutates its inputs: after the call the input
cells hold the same arrays as before, on every control path (including the
error paths), and the returned sequences live in cells allocated during the
call (references strictly beyond the initial store). -/
theorem addEchoes_preserves_inputs (σ0 : Store) (rp rc : ℕ) (epoch delta_t : ℚ)
    (tanh : ℚ → ℚ) (omegaRaw : List ℚ) (t0trunc t_echo del_t_echo : ℚ)
    (n_echoes : ℤ) (amplitude gamma : ℚ) (timestep : Option ℚ)
    (hrp : rp < σ0.length) (hrc : rc < σ0.length) :
    readA (addEchoesProg σ0 rp rc epoch delta_t tanh omegaRaw t0trunc t_echo
      del_t_echo n_echoes amplitude gamma timestep).1 rp = readA σ0 rp ∧
    readA (addEchoesProg σ0 rp rc epoch delta_t tanh omegaRaw t0trunc t_echo
      del_t_echo n_echoes amplitude gamma timestep).1 rc = readA σ0 rc ∧
    (∀ a b : ℕ, (addEchoesProg σ0 rp rc epoch delta_t tanh omegaRaw t0trunc t_echo
      del_t_echo n_echoes amplitude gamma timestep).2 = some (a, b) →
      σ0.length ≤ a ∧ σ0.length ≤ b) := by
  suffices hmain : preservesFrom σ0 (addEchoesProg σ0 rp rc epoch delta_t tanh omegaRaw
      t0trunc t_echo del_t_echo n_echoes amplitude gamma timestep).1 ∧
      ∀ a b : ℕ, (addEchoesProg σ0 rp rc epoch delta_t tanh omegaRaw t0trunc t_echo
        del_t_echo n_echoes amplitude gamma timestep).2 = some (a, b) →
        σ0.length ≤ a ∧ σ0.length ≤ b by
    exact ⟨hmain.1.2 rp hrp, hmain.1.2 rc hrc, hmain.2⟩
  simp only [addEchoesProg]
  have hbase : preservesFrom σ0
      ((σ0 ++ [omegaRaw]) ++ [List.replicate (readA σ0 rp).length 0]) :=
    preservesFrom_alloc _ _ _ (preservesFrom_alloc _ _ _ (preservesFrom_refl σ0))
  split
  · exact ⟨hbase, by simp⟩
  · rename_i σ3 rom2 heq
    obtain ⟨hp3, hr2⟩ := corrStep_preserves σ0 _ _ _ _ _ _ σ3 rom2 hbase
      (by simp) (le_refl _) heq
    have h4 : preservesFrom σ0
        (writeA σ3 rom2 (resizeTo (readA σ0 rp).length (readA σ3 rom2))) :=
      preservesFrom_write _ _ _ _ hp3 hr2
    have h4len : σ0.length ≤
        (writeA σ3 rom2 (resizeTo (readA σ0 rp).length (readA σ3 rom2))).length := by
      simpa [writeA] using hp3.1
    split
    · exact ⟨h4, by simp⟩
    · split
      · exact ⟨h4, by simp⟩
      · have h6 := preservesFrom_alloc _ _
          (List.replicate (((readA σ0 rc).length : ℤ) +
            ⌈(t_echo + (n_echoes : ℚ) * del_t_echo) / timestep.getD delta_t⌉).toNat 0)
          (preservesFrom_alloc _ _
            (List.replicate (((readA σ0 rp).length : ℤ) +
              ⌈(t_echo + (n_echoes : ℚ) * del_t_echo) / timestep.getD delta_t⌉).toNat 0)
            h4)
        have hlen5 : σ0.length ≤
            ((writeA σ3 rom2 (resizeTo (readA σ0 rp).length (readA σ3 rom2))) ++
              [List.replicate (((readA σ0 rp).length : ℤ) +
                ⌈(t_echo + (n_echoes : ℚ) * del_t_echo) /
                  timestep.getD delta_t⌉).toNat 0]).length := by
          rw [List.length_append]
          omega
        split
        · exact ⟨h6, by simp⟩
        · rename_i b1 hs1
          have h7 := preservesFrom_write _ _
            (writeA σ3 rom2 (resizeTo (readA σ0 rp).length (readA σ3 rom2))).length
            b1 h6 h4len
          split
          · exact ⟨h7, by simp⟩
          · rename_i b2 hs2
            have h8 := preservesFrom_write _ _ _ b2 h7 hlen5
            split
            · exact ⟨h8, by simp⟩
            · rename_i bp hap1
              have h9 := preservesFrom_write _ _ _ bp h8 h4len
              split
              · exact ⟨h9, by simp⟩
              · rename_i bc hap2
                refine ⟨preservesFrom_write _ _ _ bc h9 hlen5, ?_⟩
                intro a b hab
                injection hab with hab
                injection hab with ha hb
                subst ha
                subst hb
                exact ⟨h4len, hlen5⟩

/-- C10 witness: the theorem applied to a concrete two-cell store. -/
theorem addEchoes_preserves_inputs_witness :
    readA (addEchoesProg [[1, 2], [2, 1]] 0 1 0 1 (fun _ => 0) [3, 4] 0 1 1 2 1 (1/2)
      none).1 0 = readA [[1, 2], [2, 1]] 0 ∧
    readA (addEchoesProg [[1, 2], [2, 1]] 0 1 0 1 (fun _ => 0) [3, 4] 0 1 1 2 1 (1/2)
      none).1 1 = readA [[1, 2], [2, 1]] 1 ∧
    (∀ a b : ℕ, (addEchoesProg [[1, 2], [2, 1]] 0 1 0 1 (fun _ => 0) [3, 4] 0 1 1 2 1
      (1/2) none).2 = some (a, b) →
      ([[1, 2], [2, 1]] : Store).length ≤ a ∧ ([[1, 2], [2, 1]] : Store).length ≤ b) :=
  addEchoes_preserves_inputs [[1, 2], [2, 1]] 0 1 0 1 (fun _ => 0) [3, 4] 0 1 1 2 1 (1/2)
    none (by decide) (by decide)

end Echoes
